import Mathlib

/-!
# Verification of the worterbuch-react client-side state-synchronization core

This development shallowly embeds the state-synchronization logic of the
worterbuch-react library and proves properties about it:

* the insertion-ordered key/value mapping used by the hooks, modelling the
  semantics of a JavaScript `Map` (`WMap` below);
* the pattern-subscription reducer of `usePSubscribe` (`src/index.tsx`);
* the key-space tree aggregator of `useTree` / `merge` / `expand`
  (historical variant, `src/unnamed/part_001`);
* the connection lifecycle manager of `useWorterbuch` (`src/index.tsx`),
  modelled as an explicit event-driven transition system covering React's
  render/effect discipline, promise settlement, `onclose` callbacks and
  `setTimeout`-based retries.

JavaScript `Map` objects are insertion ordered: `set` updates an existing
key in place (keeping its position) and appends an unknown key at the end;
`delete` removes the entry; iteration follows insertion order.  `WMap` is a
`List (String × V)` together with operations mirroring exactly those
semantics.  Where object *identity* (reference equality) matters — React
change detection relies on it — a `Nat` token models the identity of the
underlying `Map` object: operations that mutate a `Map` in place keep the
token, `new Map(m)` allocates a fresh token.
-/

set_option linter.unusedVariables false

namespace Worterbuch

/-- Insertion-ordered string-keyed map, modelling a JavaScript `Map`. -/
abbrev WMap (V : Type) := List (String × V)

/-- `m.get(k)`: value of the first (and, for maps built by `wset`/`wdelete`,
only) entry with key `k`. -/
def wget {V : Type} (k : String) : WMap V → Option V
  | [] => none
  | (k', v) :: rest => if k' = k then some v else wget k rest

/-- `m.set(k, v)`: update the entry for `k` in place (keeping its position in
iteration order) if present, otherwise append a new entry at the end. -/
def wset {V : Type} (k : String) (v : V) : WMap V → WMap V
  | [] => [(k, v)]
  | (k', v') :: rest =>
    if k' = k then (k, v) :: rest else (k', v') :: wset k v rest

/-- `m.delete(k)`: remove the entry for `k` (if any). -/
def wdelete {V : Type} (k : String) : WMap V → WMap V
  | [] => []
  | (k', v') :: rest =>
    if k' = k then rest else (k', v') :: wdelete k rest

@[simp] theorem wget_nil {V : Type} (k : String) : wget (V := V) k [] = none := rfl

@[simp] theorem wset_nil {V : Type} (k : String) (v : V) :
    wset k v ([] : WMap V) = [(k, v)] := rfl

theorem wget_wset_self {V : Type} (k : String) (v : V) (m : WMap V) :
    wget k (wset k v m) = some v := by
  induction m with
  | nil => simp [wget, wset]
  | cons e rest ih =>
    obtain ⟨k', v'⟩ := e
    by_cases h : k' = k <;> simp [wget, wset, h, ih]

theorem wget_wset_other {V : Type} (k k' : String) (v : V) (m : WMap V)
    (h : k' ≠ k) : wget k' (wset k v m) = wget k' m := by
  have h' : ¬(k = k') := fun hh => h hh.symm
  induction m with
  | nil => simp [wget, wset, h']
  | cons e rest ih =>
    obtain ⟨k₀, v₀⟩ := e
    by_cases h0 : k₀ = k
    · subst h0
      simp [wget, wset, h']
    · by_cases h1 : k₀ = k'
      · subst h1
        simp [wget, wset, h0]
      · simp [wget, wset, h0, h1, ih]

theorem wget_wdelete_other {V : Type} (k k' : String) (m : WMap V)
    (h : k' ≠ k) : wget k' (wdelete k m) = wget k' m := by
  have h' : ¬(k = k') := fun hh => h hh.symm
  induction m with
  | nil => simp [wdelete]
  | cons e rest ih =>
    obtain ⟨k₀, v₀⟩ := e
    by_cases h0 : k₀ = k
    · subst h0
      simp [wdelete, wget, h']
    · by_cases h1 : k₀ = k'
      · subst h1
        simp [wdelete, wget, h0]
      · simp [wdelete, wget, h0, h1, ih]

theorem wget_eq_none_of_not_mem {V : Type} (k : String) (m : WMap V)
    (h : k ∉ m.map Prod.fst) : wget k m = none := by
  induction m with
  | nil => rfl
  | cons e rest ih =>
    obtain ⟨k₀, v₀⟩ := e
    simp only [List.map_cons, List.mem_cons] at h
    push_neg at h
    have h0 : ¬(k₀ = k) := fun hh => h.1 hh.symm
    simp [wget, h0, ih h.2]

theorem wget_wdelete_self {V : Type} (k : String) (m : WMap V)
    (hnd : (m.map Prod.fst).Nodup) : wget k (wdelete k m) = none := by
  induction m with
  | nil => simp [wdelete]
  | cons e rest ih =>
    obtain ⟨k₀, v₀⟩ := e
    simp only [List.map_cons, List.nodup_cons] at hnd
    by_cases h : k₀ = k
    · subst h
      simp only [wdelete, if_pos rfl]
      exact wget_eq_none_of_not_mem k₀ rest hnd.1
    · simp only [wdelete, if_neg h, wget, if_neg h]
      exact ih hnd.2

theorem mem_keys_wset {V : Type} (k k' : String) (v : V) (m : WMap V) :
    k' ∈ (wset k v m).map Prod.fst ↔ k' = k ∨ k' ∈ m.map Prod.fst := by
  induction m with
  | nil => simp [wset]
  | cons e rest ih =>
    obtain ⟨k₀, v₀⟩ := e
    by_cases h0 : k₀ = k
    · subst h0
      simp only [wset, if_pos, List.map_cons, List.mem_cons]
      constructor
      · rintro (h | h)
        · exact Or.inl h
        · exact Or.inr (Or.inr h)
      · rintro (h | h | h)
        · exact Or.inl h
        · exact Or.inl h
        · exact Or.inr h
    · simp only [wset, if_neg h0, List.map_cons, List.mem_cons, ih]
      tauto

theorem mem_keys_wdelete {V : Type} (k k' : String) (m : WMap V)
    (h : k' ∈ (wdelete k m).map Prod.fst) : k' ∈ m.map Prod.fst := by
  induction m with
  | nil => simp [wdelete] at h
  | cons e rest ih =>
    obtain ⟨k₀, v₀⟩ := e
    by_cases h0 : k₀ = k
    · subst h0
      simp only [wdelete, if_pos] at h
      simp only [List.map_cons]
      exact List.mem_cons_of_mem _ h
    · rcases (by simpa [wdelete, h0] using h :
          k' = k₀ ∨ k' ∈ (wdelete k rest).map Prod.fst) with h1 | h1
      · simp [h1]
      · simp [ih h1]

theorem nodup_keys_wset {V : Type} (k : String) (v : V) (m : WMap V)
    (hnd : (m.map Prod.fst).Nodup) : ((wset k v m).map Prod.fst).Nodup := by
  induction m with
  | nil => simp [wset]
  | cons e rest ih =>
    obtain ⟨k₀, v₀⟩ := e
    simp only [List.map_cons, List.nodup_cons] at hnd
    by_cases h : k₀ = k
    · subst h
      simpa [wset] using hnd
    · simp only [wset, if_neg h, List.map_cons, List.nodup_cons]
      refine ⟨?_, ih hnd.2⟩
      intro hmem
      rcases (mem_keys_wset k k₀ v rest).mp hmem with h1 | h1
      · exact h h1
      · exact hnd.1 h1

theorem nodup_keys_wdelete {V : Type} (k : String) (m : WMap V)
    (hnd : (m.map Prod.fst).Nodup) : ((wdelete k m).map Prod.fst).Nodup := by
  induction m with
  | nil => simp [wdelete]
  | cons e rest ih =>
    obtain ⟨k₀, v₀⟩ := e
    simp only [List.map_cons, List.nodup_cons] at hnd
    by_cases h : k₀ = k
    · simpa [wdelete, h] using hnd.2
    · simp only [wdelete, if_neg h, List.map_cons, List.nodup_cons]
      exact ⟨fun hmem => hnd.1 (mem_keys_wdelete k k₀ rest hmem), ih hnd.2⟩

theorem wget_eq_none_iff {V : Type} (k : String) (m : WMap V) :
    wget k m = none ↔ k ∉ m.map Prod.fst := by
  constructor
  · intro h hmem
    induction m with
    | nil => simp at hmem
    | cons e rest ih =>
      obtain ⟨k₀, v₀⟩ := e
      by_cases h0 : k₀ = k
      · simp [wget, h0] at h
      · simp only [wget, if_neg h0] at h
        rcases (by simpa using hmem : k = k₀ ∨ k ∈ rest.map Prod.fst) with h1 | h1
        · exact h0 h1.symm
        · exact ih h h1
  · exact wget_eq_none_of_not_mem k m

/-! ## The pattern subscription reducer (`usePSubscribe`, `src/index.tsx`)

The reducer of `usePSubscribe` receives events of the form
`[pattern, PStateEvent]`.  If the event's pattern differs from the pattern
retained in the state, it clears the `values` Map in place and overwrites the
retained pattern.  It then folds every entry of `keyValuePairs` into the Map
with `set`, then every entry of `deleted` with `delete`, and finally returns a
shallow copy `{ ...state }` of the state object.  Crucially, the shallow copy
duplicates the outer state object only: `values` stays the very same `Map`
object, which the reducer has mutated in place.  The `valuesId` token tracks
the identity of that `Map` object. -/

/-- A `PStateEvent<T>` batch as delivered by worterbuch-js: optional lists of
upserted and deleted key/value pairs. -/
structure PStateEvent (V : Type) where
  keyValuePairs : Option (List (String × V)) := none
  deleted : Option (List (String × V)) := none
  deriving DecidableEq

/-- The state of the `usePSubscribe` reducer: the values Map (plus its
identity token) and the pattern the mapping was built for. -/
structure PSubState (V : Type) where
  values : WMap V
  valuesId : Nat
  pattern : String
  deriving DecidableEq

/-- `usePSubscribe`'s `useReducer` initial state: `{ values: new Map(), pattern: "" }`. -/
def initialPSubState (V : Type) : PSubState V := ⟨[], 0, ""⟩

/-- `event[1].keyValuePairs.forEach(kvp => state.values.set(kvp.key, kvp.value))`. -/
def applyUpserts {V : Type} (m : WMap V) : Option (List (String × V)) → WMap V
  | none => m
  | some kvps => kvps.foldl (fun acc kvp => wset kvp.1 kvp.2 acc) m

/-- `event[1].deleted.forEach(kvp => state.values.delete(kvp.key))`. -/
def applyDeletes {V : Type} (m : WMap V) : Option (List (String × V)) → WMap V
  | none => m
  | some dels => dels.foldl (fun acc kvp => wdelete kvp.1 acc) m

/-- The reducer of `usePSubscribe` in `src/index.tsx` (lines 395-414).  The
in-place `clear()` keeps the Map's identity; the final `{ ...state }` copies
the outer object but not the `values` Map, so `valuesId` is preserved
unconditionally. -/
def pSubscribeReducer {V : Type} (state : PSubState V)
    (event : String × PStateEvent V) : PSubState V :=
  let st :=
    if event.1 ≠ state.pattern then
      { state with values := ([] : WMap V), pattern := event.1 }
    else state
  let vals := applyUpserts st.values event.2.keyValuePairs
  let vals := applyDeletes vals event.2.deleted
  { values := vals, valuesId := state.valuesId, pattern := st.pattern }

/-- Folding a stream of events, all tagged with the same pattern `p`, from the
initial reducer state (this is what the `usePSubscribe` subscription callback
`(e) => update([pattern, e])` produces for a fixed subscription). -/
def runPSubscribe {V : Type} (p : String) (events : List (PStateEvent V)) :
    PSubState V :=
  events.foldl (fun st e => pSubscribeReducer st (p, e)) (initialPSubState V)

/-- Spec-side replay of one batch, following the specification's words:
"first applying every `keyValuePairs` (upserted) entry as insert-or-overwrite
and then applying every `deleted` (removed) entry as delete-if-present". -/
def specReplayBatch {V : Type} (m : WMap V) (e : PStateEvent V) : WMap V :=
  let afterUpserts :=
    (e.keyValuePairs.getD []).foldl (fun acc kvp => wset kvp.1 kvp.2 acc) m
  (e.deleted.getD []).foldl (fun acc kvp => wdelete kvp.1 acc) afterUpserts

theorem applyUpserts_eq_spec {V : Type} (m : WMap V)
    (o : Option (List (String × V))) :
    applyUpserts m o = (o.getD []).foldl (fun acc kvp => wset kvp.1 kvp.2 acc) m := by
  cases o <;> rfl

theorem applyDeletes_eq_spec {V : Type} (m : WMap V)
    (o : Option (List (String × V))) :
    applyDeletes m o = (o.getD []).foldl (fun acc kvp => wdelete kvp.1 acc) m := by
  cases o <;> rfl

theorem pSubscribeReducer_values_same_pattern {V : Type} (st : PSubState V)
    (p : String) (e : PStateEvent V) (h : p = st.pattern) :
    (pSubscribeReducer st (p, e)).values = specReplayBatch st.values e := by
  simp [pSubscribeReducer, specReplayBatch, h, applyUpserts_eq_spec,
    applyDeletes_eq_spec]

theorem pSubscribeReducer_pattern {V : Type} (st : PSubState V)
    (p : String) (e : PStateEvent V) :
    (pSubscribeReducer st (p, e)).pattern = p := by
  by_cases h : p = st.pattern
  · simp [pSubscribeReducer, h]
  · simp [pSubscribeReducer, h]

theorem runPSubscribe_aux {V : Type} (p : String) (events : List (PStateEvent V)) :
    ∀ st : PSubState V, st.pattern = p →
      (events.foldl (fun st e => pSubscribeReducer st (p, e)) st).values =
        events.foldl specReplayBatch st.values := by
  induction events with
  | nil => intro st h; rfl
  | cons e rest ih =>
    intro st h
    simp only [List.foldl_cons]
    rw [ih _ (pSubscribeReducer_pattern st p e),
      pSubscribeReducer_values_same_pattern st p e h.symm]

theorem pSubscribeReducer_initial_values {V : Type} (p : String)
    (e : PStateEvent V) :
    (pSubscribeReducer (initialPSubState V) (p, e)).values = specReplayBatch [] e := by
  by_cases h : p = ""
  · exact pSubscribeReducer_values_same_pattern (initialPSubState V) p e h
  · simp [pSubscribeReducer, initialPSubState, specReplayBatch, h,
      applyUpserts_eq_spec, applyDeletes_eq_spec]

theorem runPSubscribe_values {V : Type} (p : String)
    (events : List (PStateEvent V)) :
    (runPSubscribe p events).values = events.foldl specReplayBatch [] := by
  cases events with
  | nil => rfl
  | cons e rest =>
    show (rest.foldl (fun st e => pSubscribeReducer st (p, e))
      (pSubscribeReducer (initialPSubState V) (p, e))).values = _
    rw [runPSubscribe_aux p rest _ (pSubscribeReducer_pattern _ p e),
      pSubscribeReducer_initial_values p e]
    rfl

theorem wget_wdelete_none {V : Type} (k k' : String) (m : WMap V)
    (h : wget k m = none) : wget k (wdelete k' m) = none := by
  rw [wget_eq_none_iff] at h ⊢
  exact fun hmem => h (mem_keys_wdelete k' k m hmem)

theorem wget_deleteFold_none {V : Type} (k : String)
    (dels : List (String × V)) (m : WMap V) (h : wget k m = none) :
    wget k (dels.foldl (fun acc kvp => wdelete kvp.1 acc) m) = none := by
  induction dels generalizing m with
  | nil => exact h
  | cons d rest ih => exact ih _ (wget_wdelete_none k d.1 m h)

theorem nodup_keys_upsertFold {V : Type} (kvps : List (String × V)) (m : WMap V)
    (hnd : (m.map Prod.fst).Nodup) :
    (((kvps.foldl (fun acc kvp => wset kvp.1 kvp.2 acc) m)).map Prod.fst).Nodup := by
  induction kvps generalizing m with
  | nil => exact hnd
  | cons kvp rest ih => exact ih _ (nodup_keys_wset kvp.1 kvp.2 m hnd)

theorem nodup_keys_deleteFold {V : Type} (dels : List (String × V)) (m : WMap V)
    (hnd : (m.map Prod.fst).Nodup) :
    (((dels.foldl (fun acc kvp => wdelete kvp.1 acc) m)).map Prod.fst).Nodup := by
  induction dels generalizing m with
  | nil => exact hnd
  | cons d rest ih => exact ih _ (nodup_keys_wdelete d.1 m hnd)

theorem nodup_keys_specReplayBatch {V : Type} (m : WMap V) (e : PStateEvent V)
    (hnd : (m.map Prod.fst).Nodup) :
    ((specReplayBatch m e).map Prod.fst).Nodup := by
  unfold specReplayBatch
  exact nodup_keys_deleteFold _ _ (nodup_keys_upsertFold _ _ hnd)

theorem wget_deleteFold_self {V : Type} (k : String)
    (dels : List (String × V)) (m : WMap V)
    (hnd : (m.map Prod.fst).Nodup) (hk : k ∈ dels.map Prod.fst) :
    wget k (dels.foldl (fun acc kvp => wdelete kvp.1 acc) m) = none := by
  induction dels generalizing m with
  | nil => simp at hk
  | cons d rest ih =>
    simp only [List.foldl_cons]
    by_cases h : d.1 = k
    · subst h
      exact wget_deleteFold_none d.1 rest _ (wget_wdelete_self d.1 m hnd)
    · rcases (by simpa using hk : k = d.1 ∨ k ∈ rest.map Prod.fst) with h1 | h1
      · exact absurd h1.symm h
      · exact ih _ (nodup_keys_wdelete d.1 m hnd) h1

/-- **C1.** For every sequence of `PStateEvent` batches folded by the
`usePSubscribe` reducer under a fixed pattern, the resulting mapping equals
the replay of every batch in order, each batch applied as "all `keyValuePairs`
upserts, then all `deleted` deletions"; and a key listed in the `deleted` part
of a batch is absent from the mapping right after that batch is folded in
(deletions win within a batch, in particular over an upsert of the same key in
the same batch). -/
theorem C1_psubscribe_replay {V : Type} (p : String) :
    (∀ events : List (PStateEvent V),
      (runPSubscribe p events).values = events.foldl specReplayBatch []) ∧
    (∀ (events : List (PStateEvent V)) (e : PStateEvent V) (k : String),
      k ∈ (e.deleted.getD []).map Prod.fst →
      wget k (runPSubscribe p (events ++ [e])).values = none) := by
  refine ⟨runPSubscribe_values p, ?_⟩
  intro events e k hk
  rw [runPSubscribe_values p (events ++ [e]), List.foldl_append]
  show wget k (specReplayBatch (events.foldl specReplayBatch []) e) = none
  have hnd : (((events.foldl specReplayBatch []).map Prod.fst) : List String).Nodup := by
    induction events using List.reverseRecOn with
    | nil => simp
    | append_singleton rest e' ih =>
      rw [List.foldl_append]
      exact nodup_keys_specReplayBatch _ e' ih
  unfold specReplayBatch
  exact wget_deleteFold_self k (e.deleted.getD []) _
    (nodup_keys_upsertFold _ _ hnd) hk

/-- Witness for C1 at a concrete input: the key `a` is both upserted and
deleted in the same batch and ends up absent. -/
theorem C1_psubscribe_replay_witness :
    "a" ∈ ((({ keyValuePairs := some [("a", 1)], deleted := some [("a", 2)] } :
        PStateEvent Nat).deleted.getD []).map Prod.fst) ∧
    wget "a" (runPSubscribe "p"
      ([] ++ [({ keyValuePairs := some [("a", 1)], deleted := some [("a", 2)] } :
        PStateEvent Nat)])).values = none :=
  ⟨by decide, (C1_psubscribe_replay "p").2 []
    { keyValuePairs := some [("a", 1)], deleted := some [("a", 2)] } "a" (by decide)⟩

theorem mem_keys_deleteFold {V : Type} (k : String) (dels : List (String × V))
    (m : WMap V)
    (h : k ∈ ((dels.foldl (fun acc kvp => wdelete kvp.1 acc) m)).map Prod.fst) :
    k ∈ m.map Prod.fst := by
  induction dels generalizing m with
  | nil => exact h
  | cons d rest ih => exact mem_keys_wdelete d.1 k m (ih _ h)

theorem mem_keys_upsertFold {V : Type} (k : String) (kvps : List (String × V))
    (m : WMap V)
    (h : k ∈ ((kvps.foldl (fun acc kvp => wset kvp.1 kvp.2 acc) m)).map Prod.fst) :
    k ∈ kvps.map Prod.fst ∨ k ∈ m.map Prod.fst := by
  induction kvps generalizing m with
  | nil => exact Or.inr h
  | cons kvp rest ih =>
    rcases ih _ h with h1 | h1
    · exact Or.inl (by simp [h1])
    · rcases (mem_keys_wset kvp.1 k kvp.2 m).mp h1 with h2 | h2
      · exact Or.inl (by simp [h2])
      · exact Or.inr h2

/-- **C2.** Whenever an event arrives tagged with a pattern different from the
pattern retained in the reducer state, the mapping is cleared before the event
is folded in: the resulting values are exactly the replay of this one event
over the empty mapping, the retained pattern becomes the event's pattern, and
every key present afterwards stems from this event's own `keyValuePairs` —
no entry that was only ever inserted under the previous pattern survives. -/
theorem C2_pattern_switch_clears {V : Type} (st : PSubState V) (tag : String)
    (e : PStateEvent V) (h : tag ≠ st.pattern) :
    (pSubscribeReducer st (tag, e)).values = specReplayBatch [] e ∧
    (pSubscribeReducer st (tag, e)).pattern = tag ∧
    ∀ k, wget k (pSubscribeReducer st (tag, e)).values ≠ none →
      k ∈ (e.keyValuePairs.getD []).map Prod.fst := by
  have hval : (pSubscribeReducer st (tag, e)).values = specReplayBatch [] e := by
    simp [pSubscribeReducer, specReplayBatch, h, applyUpserts_eq_spec,
      applyDeletes_eq_spec]
  refine ⟨hval, pSubscribeReducer_pattern st tag e, ?_⟩
  intro k hk
  rw [hval] at hk
  by_contra hmem
  apply hk
  rw [wget_eq_none_iff]
  intro hinside
  unfold specReplayBatch at hinside
  rcases mem_keys_upsertFold k _ _ (mem_keys_deleteFold k _ _ hinside) with h1 | h1
  · exact hmem h1
  · simp at h1

/-- Witness for C2 at a concrete input: an entry inserted under the old
pattern `q` is gone after an event tagged `p` arrives. -/
theorem C2_pattern_switch_clears_witness :
    ("p" : String) ≠ "q" ∧
    (pSubscribeReducer (⟨[("old", 7)], 0, "q"⟩ : PSubState Nat)
        ("p", { keyValuePairs := some [("x", 1)] })).values =
      specReplayBatch [] { keyValuePairs := some [("x", 1)] } :=
  ⟨by decide,
    (C2_pattern_switch_clears (⟨[("old", 7)], 0, "q"⟩ : PSubState Nat) "p"
      { keyValuePairs := some [("x", 1)] } (by decide)).1⟩

/-- **C3.** The `usePSubscribe` reducer in `src/index.tsx` never allocates a
fresh `Map` for its `values`: `clear`, `set` and `delete` mutate the Map in
place and the final `{ ...state }` copies only the outer state object, so the
identity token of the emitted Map always equals the incoming one.  On the
concrete two-event run the two emitted snapshots therefore share the same Map
identity while holding different contents — the snapshot emitted for the
first event has been mutated in place by the second, contradicting the
fresh-snapshot claim. -/
theorem C3_snapshot_identity_bug :
    (∀ (st : PSubState Nat) (ev : String × PStateEvent Nat),
        (pSubscribeReducer st ev).valuesId = st.valuesId) ∧
    (pSubscribeReducer (initialPSubState Nat)
        ("p", { keyValuePairs := some [("a", 1)] })).valuesId =
      (pSubscribeReducer
        (pSubscribeReducer (initialPSubState Nat)
          ("p", { keyValuePairs := some [("a", 1)] }))
        ("p", { keyValuePairs := some [("b", 2)] })).valuesId ∧
    (pSubscribeReducer (initialPSubState Nat)
        ("p", { keyValuePairs := some [("a", 1)] })).values ≠
      (pSubscribeReducer
        (pSubscribeReducer (initialPSubState Nat)
          ("p", { keyValuePairs := some [("a", 1)] }))
        ("p", { keyValuePairs := some [("b", 2)] })).values :=
  ⟨fun st ev => rfl, rfl, by decide⟩

/-! ## The key-space tree aggregator (`useTree` / `merge` / `expand`)

From the `src/unnamed/part_001` variant of the library.  A tree node is a
JavaScript `Map` from a segment string to a child node; a node with an empty
child Map is a leaf.  `useTree`'s reducer splits every upserted key on the
configured separator and merges the segment chain into the tree, tracking a
`changed` flag; it returns `new Map(state)` (a fresh snapshot reference) iff
`changed` is true and the previous `state` reference otherwise.  The `treeId`
token models the identity of the top-level Map object. -/

/-- A tree node: an insertion-ordered mapping from segment to child node. -/
inductive Tree where
  | node : List (String × Tree) → Tree

/-- The children mapping of a node. -/
def Tree.children : Tree → List (String × Tree)
  | .node cs => cs

/-- The reducer state of `useTree` is itself a `Map<string, Tree>` (the root's
children); `TreeMap` is that mapping. -/
abbrev TreeMap := WMap Tree

mutual

/-- Number of nodes of a tree (the node itself plus all descendants). -/
def Tree.size : Tree → Nat
  | .node cs => 1 + sizeM cs

/-- Total number of nodes in a children mapping. -/
def sizeM : List (String × Tree) → Nat
  | [] => 0
  | (_, t) :: rest => t.size + sizeM rest

end

/-- The `merge` function of `part_001` (lines 251-266): walk/create the child
for `key`, then — if the next segment (`tail.shift()`) exists and is non-empty
(JavaScript truthiness of `if (head)`) — recurse into the child.  Returns the
`changed` flag (`true` iff at least one node was created) together with the
updated mapping; the source mutates `map` and the child Map in place, which is
modelled by threading the updated mapping through `wset` (which keeps an
existing key's position). -/
def merge (key : String) (tail : List String) (m : TreeMap) : Bool × TreeMap :=
  match tail with
  | [] =>
    match wget key m with
    | none => (true, wset key (Tree.node []) m)
    | some _ => (false, m)
  | h :: t =>
    match wget key m with
    | none =>
      if h = "" then (true, wset key (Tree.node []) m)
      else (true, wset key (Tree.node (merge h t []).2) m)
    | some c =>
      if h = "" then (false, m)
      else
        let r := merge h t c.children
        (r.1, wset key (Tree.node r.2) m)

/-- `chainIn chain m` holds iff walking the segment chain from `m` finds every
segment already present. -/
def chainIn : List String → TreeMap → Bool
  | [], _ => true
  | s :: rest, m =>
    match wget s m with
    | some c => chainIn rest c.children
    | none => false

/-- `leafAt m p` holds iff `p` is the path of a leaf: walking `p` from `m`
succeeds and ends at a node with no children. -/
def leafAt (m : TreeMap) : List String → Bool
  | [] => m.isEmpty
  | s :: rest =>
    match wget s m with
    | some c => leafAt c.children rest
    | none => false

/-- JavaScript's `String.split` for a single-character separator, on the
character list: splitting the empty string yields `[""]`, and every occurrence
of the separator starts a new (possibly empty) segment. -/
def splitChars (sep : Char) : List Char → List (List Char)
  | [] => [[]]
  | c :: rest =>
    match splitChars sep rest with
    | [] => [[]]
    | s :: ss => if c = sep then [] :: s :: ss else (c :: s) :: ss

/-- `key.split(separator)` for a single-character separator (the default
separator is `"/"`). -/
def jsSplit (sep : Char) (k : String) : List String :=
  (splitChars sep k.toList).map (fun cs => String.mk cs)

/-- The segment-level part of one `useTree` reducer step: given the split
segments of a key, merge the chain if the first segment exists and is
non-empty (the JavaScript truthiness check `if (head)`), or-ing the
`changed` flag. -/
def treeStepSegs (acc : Bool × TreeMap) : List String → Bool × TreeMap
  | [] => acc
  | head :: tail =>
    if head = "" then acc
    else
      let r := merge head tail acc.2
      (r.1 || acc.1, r.2)

/-- One step of `useTree`'s reducer for a single key/value pair (lines
218-227 of `part_001`): split the key on the separator and process the
segment chain. -/
def treeStep {V : Type} (sep : Char) (acc : Bool × TreeMap) (kvp : String × V) :
    Bool × TreeMap :=
  treeStepSegs acc (jsSplit sep kvp.1)

@[simp] theorem treeStepSegs_nil (acc : Bool × TreeMap) :
    treeStepSegs acc [] = acc := rfl

theorem treeStepSegs_cons (acc : Bool × TreeMap) (head : String)
    (tail : List String) :
    treeStepSegs acc (head :: tail) =
      if head = "" then acc
      else ((merge head tail acc.2).1 || acc.1, (merge head tail acc.2).2) := rfl

/-- The reducer state of `useTree` together with the identity token of the
top-level Map object. -/
structure TreeSnap where
  root : TreeMap
  treeId : Nat

/-- `useTree`'s reducer over a whole `KeyValuePairs` batch (lines 218-233):
fold every pair, then return `new Map(state)` (fresh identity) if `changed`,
else return `state` itself (same identity). -/
def treeReducer {V : Type} (sep : Char) (snap : TreeSnap)
    (kvps : List (String × V)) : TreeSnap :=
  let r := kvps.foldl (treeStep sep) (false, snap.root)
  if r.1 then { root := r.2, treeId := snap.treeId + 1 }
  else { root := r.2, treeId := snap.treeId }

/-- The `expand` traversal (lines 200-212) restricted to a non-empty entry
list: for each entry, a leaf child contributes the extended path, a non-leaf
child is expanded recursively. -/
def expandEntries : List (String × Tree) → List String → List (List String)
  | [], _ => []
  | (s, Tree.node c) :: rest, path =>
    (match c with
     | [] => [path ++ [s]]
     | c' => expandEntries c' (path ++ [s])) ++ expandEntries rest path

/-- The `expand` function of `part_001` (lines 200-212): depth-first
collection of the root-to-leaf paths of the tree, in child-Map iteration
(insertion) order; an empty subtree contributes its own prefix path. -/
def expand (subtree : TreeMap) (path : List String) : List (List String) :=
  match subtree with
  | [] => [path]
  | es => expandEntries es path

@[simp] theorem Tree.node_children (t : Tree) : Tree.node t.children = t := by
  cases t; rfl

theorem wset_self {V : Type} (k : String) (v : V) (m : WMap V)
    (h : wget k m = some v) : wset k v m = m := by
  induction m with
  | nil => simp [wget] at h
  | cons e rest ih =>
    obtain ⟨k₀, v₀⟩ := e
    by_cases h0 : k₀ = k
    · subst h0
      simp only [wget, if_pos] at h
      obtain rfl : v₀ = v := by injection h
      simp [wset]
    · simp only [wget, if_neg h0] at h
      simp [wset, h0, ih h]

theorem merge_nil (key : String) (m : TreeMap) :
    merge key [] m =
      (match wget key m with
       | none => (true, wset key (Tree.node []) m)
       | some _ => (false, m)) := rfl

theorem merge_cons (key hd : String) (t : List String) (m : TreeMap) :
    merge key (hd :: t) m =
      (match wget key m with
       | none =>
         if hd = "" then (true, wset key (Tree.node []) m)
         else (true, wset key (Tree.node (merge hd t []).2) m)
       | some c =>
         if hd = "" then (false, m)
         else ((merge hd t c.children).1,
           wset key (Tree.node (merge hd t c.children).2) m)) := rfl

theorem sizeM_wset_none (k : String) (t : Tree) (m : TreeMap)
    (h : wget k m = none) : sizeM (wset k t m) = sizeM m + t.size := by
  induction m with
  | nil => simp [wset, sizeM]
  | cons e rest ih =>
    obtain ⟨k₀, t₀⟩ := e
    by_cases h0 : k₀ = k
    · simp [wget, h0] at h
    · simp only [wget, if_neg h0] at h
      simp only [wset, if_neg h0, sizeM, ih h]
      omega

theorem sizeM_wset_some (k : String) (t t₀ : Tree) (m : TreeMap)
    (h : wget k m = some t₀) : sizeM (wset k t m) + t₀.size = sizeM m + t.size := by
  induction m with
  | nil => simp [wget] at h
  | cons e rest ih =>
    obtain ⟨k₁, t₁⟩ := e
    by_cases h0 : k₁ = k
    · subst h0
      simp only [wget, if_pos] at h
      obtain rfl : t₁ = t₀ := by injection h
      simp only [wset, if_pos, sizeM]
      omega
    · simp only [wget, if_neg h0] at h
      simp only [wset, if_neg h0, sizeM]
      have := ih h
      omega

theorem merge_false_eq (key : String) (tail : List String) (m : TreeMap)
    (h : (merge key tail m).1 = false) : (merge key tail m).2 = m := by
  induction tail generalizing key m with
  | nil =>
    rw [merge_nil] at h ⊢
    cases hw : wget key m with
    | none => simp [hw] at h
    | some c => simp [hw]
  | cons hd t ih =>
    rw [merge_cons] at h ⊢
    cases hw : wget key m with
    | none =>
      simp only [hw] at h
      by_cases hhd : hd = "" <;> simp [hhd] at h
    | some c =>
      simp only [hw] at h ⊢
      by_cases hhd : hd = ""
      · simp [hhd]
      · simp only [if_neg hhd] at h ⊢
        have h2 := ih hd c.children h
        rw [h2, Tree.node_children]
        exact wset_self key c m hw

theorem merge_true_size (key : String) (tail : List String) (m : TreeMap)
    (h : (merge key tail m).1 = true) : sizeM m < sizeM (merge key tail m).2 := by
  induction tail generalizing key m with
  | nil =>
    rw [merge_nil] at h ⊢
    cases hw : wget key m with
    | none =>
      simp only [hw]
      rw [sizeM_wset_none key _ m hw]
      simp [Tree.size, sizeM]
    | some c => simp [hw] at h
  | cons hd t ih =>
    rw [merge_cons] at h ⊢
    cases hw : wget key m with
    | none =>
      simp only [hw]
      by_cases hhd : hd = ""
      · simp only [if_pos hhd]
        rw [sizeM_wset_none key _ m hw]
        simp [Tree.size, sizeM]
      · simp only [if_neg hhd]
        rw [sizeM_wset_none key _ m hw]
        simp [Tree.size, sizeM]
    | some c =>
      simp only [hw] at h ⊢
      by_cases hhd : hd = ""
      · simp [hhd] at h
      · simp only [if_neg hhd] at h ⊢
        have hlt := ih hd c.children h
        have hsz := sizeM_wset_some key
          (Tree.node (merge hd t c.children).2) c m hw
        have hc : c.size = 1 + sizeM c.children := by
          cases c
          rfl
        simp only [Tree.size] at hsz
        omega

theorem merge_size_le (key : String) (tail : List String) (m : TreeMap) :
    sizeM m ≤ sizeM (merge key tail m).2 := by
  cases hb : (merge key tail m).1
  · rw [merge_false_eq key tail m hb]
  · exact le_of_lt (merge_true_size key tail m hb)

theorem chainIn_wset_untouched (key s : String) (t : Tree) (m : TreeMap)
    (cs : List String) (hsk : s ≠ key) (h : chainIn (s :: cs) m = true) :
    chainIn (s :: cs) (wset key t m) = true := by
  simp only [chainIn] at h ⊢
  rw [wget_wset_other key s t m hsk]
  exact h

theorem merge_chainIn (key : String) (tail : List String) (m : TreeMap)
    (chain : List String) (h : chainIn chain m = true) :
    chainIn chain (merge key tail m).2 = true := by
  induction tail generalizing key m chain with
  | nil =>
    rw [merge_nil]
    cases hw : wget key m with
    | none =>
      cases chain with
      | nil => rfl
      | cons s cs =>
        by_cases hsk : s = key
        · subst hsk
          simp [chainIn, hw] at h
        · exact chainIn_wset_untouched key s _ m cs hsk h
    | some c => simpa using h
  | cons hd t ih =>
    rw [merge_cons]
    cases hw : wget key m with
    | none =>
      by_cases hhd : hd = "" <;>
      · simp only [hhd, if_pos, if_neg, ite_true, ite_false]
        cases chain with
        | nil => rfl
        | cons s cs =>
          by_cases hsk : s = key
          · subst hsk
            simp [chainIn, hw] at h
          · exact chainIn_wset_untouched key s _ m cs hsk h
    | some c =>
      simp only
      by_cases hhd : hd = ""
      · simpa [hhd] using h
      · simp only [if_neg hhd]
        cases chain with
        | nil => rfl
        | cons s cs =>
          by_cases hsk : s = key
          · subst hsk
            simp only [chainIn] at h ⊢
            rw [wget_wset_self s _ m]
            rw [hw] at h
            exact ih hd c.children cs h
          · exact chainIn_wset_untouched key s _ m cs hsk h

theorem chainIn_prefix (l1 l2 : List String) (m : TreeMap)
    (h : chainIn (l1 ++ l2) m = true) : chainIn l1 m = true := by
  induction l1 generalizing m with
  | nil => rfl
  | cons s rest ih =>
    simp only [List.cons_append, chainIn] at h ⊢
    cases hs : wget s m with
    | none => simp [hs] at h
    | some c =>
      rw [hs] at h
      exact ih c.children h

theorem merge_noop (key : String) (tail : List String) (m : TreeMap)
    (h : chainIn (key :: tail.takeWhile (fun s => s ≠ "")) m = true) :
    merge key tail m = (false, m) := by
  induction tail generalizing key m with
  | nil =>
    simp only [List.takeWhile_nil, chainIn] at h
    cases hw : wget key m with
    | none => simp [hw] at h
    | some c => simp [merge_nil, hw]
  | cons hd t ih =>
    by_cases hhd : hd = ""
    · subst hhd
      simp only [List.takeWhile_cons, chainIn] at h
      cases hw : wget key m with
      | none => simp [hw] at h
      | some c => simp [merge_cons, hw]
    · simp only [List.takeWhile_cons] at h
      rw [if_pos (by simp [hhd])] at h
      cases hw : wget key m with
      | none => simp [chainIn, hw] at h
      | some c =>
        have h2 : chainIn (hd :: t.takeWhile (fun s => s ≠ "")) c.children = true := by
          simpa [chainIn, hw] using h
        have h3 := ih hd c.children h2
        rw [merge_cons, hw]
        simp only [if_neg hhd, h3]
        rw [Tree.node_children, wset_self key c m hw]

theorem merge_takeWhile (key : String) (tail : List String) (m : TreeMap) :
    merge key tail m = merge key (tail.takeWhile (fun s => s ≠ "")) m := by
  induction tail generalizing key m with
  | nil => rfl
  | cons hd t ih =>
    by_cases hhd : hd = ""
    · subst hhd
      rw [show List.takeWhile (fun s => decide (s ≠ "")) ("" :: t) = [] by simp]
      rw [merge_cons, merge_nil]
      cases hw : wget key m <;> simp
    · rw [show List.takeWhile (fun s => decide (s ≠ "")) (hd :: t)
          = hd :: List.takeWhile (fun s => decide (s ≠ "")) t by simp [hhd]]
      rw [merge_cons, merge_cons]
      cases hw : wget key m with
      | none => simp [if_neg hhd, ih]
      | some c => simp [if_neg hhd, ih]

theorem treeStep_false {V : Type} (sep : Char) (acc : Bool × TreeMap)
    (kvp : String × V) (h : (treeStep sep acc kvp).1 = false) :
    (treeStep sep acc kvp).2 = acc.2 ∧ acc.1 = false := by
  unfold treeStep at h ⊢
  cases hs : jsSplit sep kvp.1 with
  | nil =>
    rw [hs] at h
    exact ⟨rfl, h⟩
  | cons head tail =>
    rw [hs] at h
    simp only [treeStepSegs_cons] at h ⊢
    by_cases hh : head = ""
    · rw [if_pos hh] at h ⊢
      exact ⟨rfl, h⟩
    · rw [if_neg hh] at h ⊢
      simp only [Bool.or_eq_false_iff] at h
      exact ⟨merge_false_eq _ _ _ h.1, h.2⟩

theorem treeStep_size_le {V : Type} (sep : Char) (acc : Bool × TreeMap)
    (kvp : String × V) : sizeM acc.2 ≤ sizeM (treeStep sep acc kvp).2 := by
  unfold treeStep
  cases hs : jsSplit sep kvp.1 with
  | nil => exact le_refl _
  | cons head tail =>
    rw [treeStepSegs_cons]
    by_cases hh : head = ""
    · rw [if_pos hh]
    · rw [if_neg hh]
      exact merge_size_le head tail acc.2

theorem treeStep_true_size {V : Type} (sep : Char) (acc : Bool × TreeMap)
    (kvp : String × V) (hacc : acc.1 = false)
    (h : (treeStep sep acc kvp).1 = true) :
    sizeM acc.2 < sizeM (treeStep sep acc kvp).2 := by
  unfold treeStep at h ⊢
  cases hs : jsSplit sep kvp.1 with
  | nil =>
    rw [hs, treeStepSegs_nil] at h
    rw [h] at hacc
    exact absurd hacc (by simp)
  | cons head tail =>
    rw [hs] at h
    simp only [treeStepSegs_cons] at h ⊢
    by_cases hh : head = ""
    · rw [if_pos hh] at h
      rw [h] at hacc
      exact absurd hacc (by simp)
    · rw [if_neg hh] at h ⊢
      simp only [hacc, Bool.or_false] at h
      exact merge_true_size head tail acc.2 h

theorem treeFold_false {V : Type} (sep : Char) (kvps : List (String × V))
    (acc : Bool × TreeMap) (h : (kvps.foldl (treeStep sep) acc).1 = false) :
    (kvps.foldl (treeStep sep) acc).2 = acc.2 ∧ acc.1 = false := by
  induction kvps generalizing acc with
  | nil => exact ⟨rfl, h⟩
  | cons kvp rest ih =>
    simp only [List.foldl_cons] at h ⊢
    obtain ⟨h1, h2⟩ := ih (treeStep sep acc kvp) h
    obtain ⟨h3, h4⟩ := treeStep_false sep acc kvp h2
    exact ⟨h1.trans h3, h4⟩

theorem treeFold_size_le {V : Type} (sep : Char) (kvps : List (String × V))
    (acc : Bool × TreeMap) :
    sizeM acc.2 ≤ sizeM (kvps.foldl (treeStep sep) acc).2 := by
  induction kvps generalizing acc with
  | nil => exact le_refl _
  | cons kvp rest ih =>
    simp only [List.foldl_cons]
    exact le_trans (treeStep_size_le sep acc kvp) (ih (treeStep sep acc kvp))

theorem treeFold_true_size {V : Type} (sep : Char) (kvps : List (String × V))
    (acc : Bool × TreeMap) (hacc : acc.1 = false)
    (h : (kvps.foldl (treeStep sep) acc).1 = true) :
    sizeM acc.2 < sizeM (kvps.foldl (treeStep sep) acc).2 := by
  induction kvps generalizing acc with
  | nil =>
    rw [List.foldl_nil] at h
    rw [h] at hacc
    exact absurd hacc (by simp)
  | cons kvp rest ih =>
    simp only [List.foldl_cons] at h ⊢
    cases hb : (treeStep sep acc kvp).1 with
    | true =>
      exact lt_of_lt_of_le (treeStep_true_size sep acc kvp hacc hb)
        (treeFold_size_le sep rest _)
    | false =>
      obtain ⟨h1, _⟩ := treeStep_false sep acc kvp hb
      have := ih (treeStep sep acc kvp) hb h
      rwa [h1] at this

theorem treeStep_noop {V : Type} (sep : Char) (root : TreeMap)
    (kvp : String × V) (hch : chainIn (jsSplit sep kvp.1) root = true) :
    treeStep sep (false, root) kvp = (false, root) := by
  unfold treeStep
  cases hs : jsSplit sep kvp.1 with
  | nil => rfl
  | cons head tail =>
    rw [treeStepSegs_cons]
    by_cases hh : head = ""
    · rw [if_pos hh]
    · rw [if_neg hh]
      rw [hs] at hch
      have hpre : chainIn (head :: tail.takeWhile (fun s => s ≠ "")) root = true := by
        have hsplit : head :: tail
            = (head :: tail.takeWhile (fun s => s ≠ ""))
              ++ tail.dropWhile (fun s => s ≠ "") := by
          simp [List.takeWhile_append_dropWhile]
        rw [hsplit] at hch
        exact chainIn_prefix _ _ root hch
      have := merge_noop head tail root hpre
      simp [this]

theorem treeFold_noop {V : Type} (sep : Char) (kvps : List (String × V))
    (root : TreeMap)
    (hch : ∀ kvp ∈ kvps, chainIn (jsSplit sep kvp.1) root = true) :
    kvps.foldl (treeStep sep) (false, root) = (false, root) := by
  induction kvps with
  | nil => rfl
  | cons kvp rest ih =>
    simp only [List.foldl_cons]
    rw [treeStep_noop sep root kvp (hch kvp (by simp))]
    exact ih (fun k hk => hch k (by simp [hk]))

/-- **C4.** If every key of a batch has its full segment chain already present
in the tree, `useTree`'s reducer returns the previous snapshot unchanged
(same contents *and* same Map identity); and in general it emits a snapshot
with a fresh identity if and only if processing the batch created at least
one new tree node (the total node count strictly grew). -/
theorem C4_tree_snapshot {V : Type} (sep : Char) (snap : TreeSnap)
    (kvps : List (String × V)) :
    ((∀ kvp ∈ kvps, chainIn (jsSplit sep kvp.1) snap.root = true) →
      treeReducer sep snap kvps = snap) ∧
    ((treeReducer sep snap kvps).treeId ≠ snap.treeId ↔
      sizeM snap.root < sizeM (treeReducer sep snap kvps).root) := by
  constructor
  · intro hch
    unfold treeReducer
    rw [treeFold_noop sep kvps snap.root hch]
    cases snap
    rfl
  · unfold treeReducer
    by_cases hb : (kvps.foldl (treeStep sep) (false, snap.root)).1 = true
    · rw [if_pos hb]
      constructor
      · intro _
        exact treeFold_true_size sep kvps (false, snap.root) rfl hb
      · intro _
        exact Nat.succ_ne_self snap.treeId
    · rw [if_neg hb]
      have hb' : (kvps.foldl (treeStep sep) (false, snap.root)).1 = false := by
        simpa using hb
      obtain ⟨h1, _⟩ := treeFold_false sep kvps (false, snap.root) hb'
      constructor
      · intro hne
        exact absurd rfl hne
      · intro hlt
        rw [h1] at hlt
        exact absurd hlt (lt_irrefl _)

/-- Witness for C4 at a concrete input: a batch whose single key `a/b` is
already fully present in the tree leaves the snapshot untouched. -/
theorem C4_tree_snapshot_witness :
    (∀ kvp ∈ [(("a/b" : String), (0 : Nat))],
      chainIn (jsSplit '/' kvp.1)
        [("a", Tree.node [("b", Tree.node [])])] = true) ∧
    treeReducer '/' ⟨[("a", Tree.node [("b", Tree.node [])])], 5⟩
        [(("a/b" : String), (0 : Nat))]
      = ⟨[("a", Tree.node [("b", Tree.node [])])], 5⟩ :=
  ⟨by decide,
    (C4_tree_snapshot '/' ⟨[("a", Tree.node [("b", Tree.node [])])], 5⟩
      [(("a/b" : String), (0 : Nat))]).1 (by decide)⟩

/-- **C5.** The `merge` operation reports `true` exactly when it created at
least one new node (the node count strictly grew along the walked chain);
when it reports `false` the mapping is completely unchanged; and it never
removes an existing node: every segment chain present before the merge is
still present afterwards. -/
theorem C5_merge_reports_creation (key : String) (tail : List String)
    (m : TreeMap) :
    ((merge key tail m).1 = true ↔ sizeM m < sizeM (merge key tail m).2) ∧
    ((merge key tail m).1 = false → (merge key tail m).2 = m) ∧
    (∀ chain, chainIn chain m = true →
      chainIn chain (merge key tail m).2 = true) := by
  refine ⟨⟨merge_true_size key tail m, ?_⟩, merge_false_eq key tail m,
    merge_chainIn key tail m⟩
  intro hlt
  cases hb : (merge key tail m).1 with
  | true => rfl
  | false =>
    rw [merge_false_eq key tail m hb] at hlt
    exact absurd hlt (lt_irrefl _)

/-- Witness for C5 at a concrete input: merging `x/y` into a tree that already
holds the chain `a` creates nodes (`true`, size grows) and keeps chain `a`. -/
theorem C5_merge_reports_creation_witness :
    ((merge "x" ["y"] [("a", Tree.node [])]).1 = true ↔
      sizeM [("a", Tree.node [])] <
        sizeM (merge "x" ["y"] [("a", Tree.node [])]).2) ∧
    chainIn ["a"] [("a", Tree.node [])] = true ∧
    chainIn ["a"] (merge "x" ["y"] [("a", Tree.node [])]).2 = true :=
  ⟨(C5_merge_reports_creation "x" ["y"] [("a", Tree.node [])]).1,
    by decide,
    (C5_merge_reports_creation "x" ["y"] [("a", Tree.node [])]).2.2 ["a"]
      (by decide)⟩

/-- **C10.** A key/value pair whose key splits to an empty first segment (the
empty key, or a key beginning with the separator) is skipped entirely by
`useTree`'s reducer step — no node is created and the `changed` flag is left
alone; and `merge` walks only the prefix of non-empty segments of its tail:
it computes exactly the same result as on the tail truncated at the first
empty segment. -/
theorem C10_empty_segment_guard {V : Type} (sep : Char) :
    (∀ (acc : Bool × TreeMap) (k : String) (v : V),
      (jsSplit sep k).head? = some "" → treeStep sep acc (k, v) = acc) ∧
    (∀ (key : String) (tail : List String) (m : TreeMap),
      merge key tail m = merge key (tail.takeWhile (fun s => s ≠ "")) m) := by
  constructor
  · intro acc k v hh
    unfold treeStep
    cases hs : jsSplit sep k with
    | nil => rfl
    | cons head tail =>
      rw [hs] at hh
      obtain rfl : head = "" := by simpa using hh
      rw [treeStepSegs_cons, if_pos rfl]
  · intro key tail m
    exact merge_takeWhile key tail m

/-- Witness for C10 at a concrete input: the key `/a` (empty first segment)
is skipped, and merging the tail `[b, "", c]` equals merging just `[b]`. -/
theorem C10_empty_segment_guard_witness :
    (jsSplit '/' "/a").head? = some "" ∧
    treeStep '/' (false, ([] : TreeMap)) (("/a" : String), (0 : Nat))
      = (false, ([] : TreeMap)) ∧
    merge "a" ["b", "", "c"] ([] : TreeMap)
      = merge "a" ["b"] ([] : TreeMap) :=
  ⟨by decide,
    (C10_empty_segment_guard (V := Nat) '/').1 (false, []) "/a" 0 (by decide),
    by
      have h := (C10_empty_segment_guard (V := Nat) '/').2 "a" ["b", "", "c"] []
      rw [show List.takeWhile (fun s => decide (s ≠ "")) ["b", "", "c"]
          = ["b"] from rfl] at h
      exact h⟩

theorem leafAt_cons_some (m : TreeMap) (s : String) (c : Tree) (p : List String)
    (h : wget s m = some c) : leafAt m (s :: p) = leafAt c.children p := by
  simp [leafAt, h]

theorem leafAt_cons_none (m : TreeMap) (s : String) (p : List String)
    (h : wget s m = none) : leafAt m (s :: p) = false := by
  simp [leafAt, h]

/-- The tree that `useTree`'s reducer builds from exactly the keys `a/b/c`
and `a/b/d` (default separator `/`). -/
def abTree : TreeMap :=
  (treeReducer '/' ⟨[], 0⟩ [(("a/b/c" : String), (0 : Nat)), ("a/b/d", 0)]).root

/-- **C6.** Flattening the tree built from exactly the keys `a/b/c` and
`a/b/d` yields exactly the two paths `[a,b,c]` and `[a,b,d]`, in this
deterministic (insertion) order; and a path is collected by `expand` exactly
when it is the root-to-leaf segment path of a leaf (a node with an empty
child mapping) of that tree. -/
theorem C6_expand_two_keys :
    expand abTree [] = [["a", "b", "c"], ["a", "b", "d"]] ∧
    ∀ p : List String, p ∈ expand abTree [] ↔ leafAt abTree p = true := by
  have htree : abTree =
      [("a", Tree.node [("b", Tree.node
        [("c", Tree.node []), ("d", Tree.node [])])])] := rfl
  have hexp : expand abTree [] = [["a", "b", "c"], ["a", "b", "d"]] := by
    rw [htree]
    simp [expand, expandEntries]
  refine ⟨hexp, ?_⟩
  intro p
  rw [hexp]
  constructor
  · intro hp
    rcases (by simpa using hp : p = ["a", "b", "c"] ∨ p = ["a", "b", "d"]) with
      rfl | rfl
    · rfl
    · rfl
  · intro hl
    rw [htree] at hl
    match p with
    | [] => simp [leafAt] at hl
    | s1 :: p1 =>
      by_cases h1 : ("a" : String) = s1
      case neg => rw [leafAt_cons_none _ _ _ (by simp [wget, h1])] at hl; simp at hl
      case pos =>
      subst h1
      rw [leafAt_cons_some _ _ (Tree.node
        [("b", Tree.node [("c", Tree.node []), ("d", Tree.node [])])]) _
        (by simp [wget])] at hl
      match p1 with
      | [] => simp [leafAt, Tree.children] at hl
      | s2 :: p2 =>
        by_cases h2 : ("b" : String) = s2
        case neg =>
          rw [leafAt_cons_none _ _ _ (by simp [wget, Tree.children, h2])] at hl
          simp at hl
        case pos =>
        subst h2
        rw [leafAt_cons_some _ _ (Tree.node
          [("c", Tree.node []), ("d", Tree.node [])]) _
          (by simp [wget, Tree.children])] at hl
        match p2 with
        | [] => simp [leafAt, Tree.children] at hl
        | s3 :: p3 =>
          by_cases h3 : ("c" : String) = s3
          case pos =>
            subst h3
            rw [leafAt_cons_some _ _ (Tree.node []) _
              (by simp [wget, Tree.children])] at hl
            have : p3 = [] := by
              cases p3 with
              | nil => rfl
              | cons s4 p4 => simp [leafAt, Tree.children] at hl
            subst this
            simp
          case neg =>
            by_cases h4 : ("d" : String) = s3
            case pos =>
              subst h4
              rw [leafAt_cons_some _ _ (Tree.node []) _
                (by simp [wget, Tree.children, h3])] at hl
              have : p3 = [] := by
                cases p3 with
                | nil => rfl
                | cons s4 p4 => simp [leafAt, Tree.children] at hl
              subst this
              simp
            case neg =>
              rw [leafAt_cons_none _ _ _
                (by simp [wget, Tree.children, h3, h4])] at hl
              simp at hl

/-- Witness for C6 at a concrete path: `[a,b,c]` is collected by `expand`
and is a leaf path of the tree. -/
theorem C6_expand_two_keys_witness :
    ["a", "b", "c"] ∈ expand abTree [] ∧ leafAt abTree ["a", "b", "c"] = true :=
  ⟨by rw [C6_expand_two_keys.1]; simp,
    (C6_expand_two_keys.2 ["a", "b", "c"]).mp
      (by rw [C6_expand_two_keys.1]; simp)⟩

/-- **C9.** Flattening a completely empty tree (a root whose child mapping is
empty) yields exactly one path — the empty path: `expand` returns a list
containing a single empty segment sequence, not an empty list of paths. -/
theorem C9_expand_empty_tree : expand ([] : TreeMap) [] = [[]] := rfl

/-! ## The connection lifecycle manager (`useWorterbuch`, `src/index.tsx`)

`useWorterbuch` (lines 72-163) keeps React state `conn` (the connection
handle), `attempt` (the reconnect attempt counter) and a `{state, status}`
summary, and runs one effect whose dependencies are (up to constants)
`conn` and `attempt`:

* the effect body connects when `!conn && address && (attempt === 0 ||
  automaticReconnect)`, first setting the summary to `Connecting`/`Warning`;
* the effect cleanup, armed with the previous render's `conn`, closes that
  connection, clears `conn` and sets `Disconnected`/`Error`;
* a fulfilled connect promise arms an `onclose` callback, stores the handle
  and sets `Connected`/`Ok`; a rejected one sets `CouldNotConnect`/`Error`
  and calls `attemptReconnect`;
* the armed `onclose` callback clears `conn`, sets `Disconnected`/`Error`
  and calls `attemptReconnect`;
* `attemptReconnect` — a `useCallback` over the render's `attempt` — arms,
  when `automaticReconnect` is set, a 3000 ms timer doing
  `setAttempt(attempt + 1)` with the captured `attempt`.

The model below is an event-driven transition system.  A step runs one
external callback (promise settlement, `onclose`, timer expiry) and then
`stabilize`s: it re-runs the effect (cleanup of the previous instance, then
the body over the new render's dependencies) until the dependencies match
the ones of the last run, exactly as React re-renders after `setState`.
Capture of the render-time `attempt` by the promise callbacks, the `onclose`
handler and the timers is modelled by recording that value (`cap` / `val`)
when the closure is created.  `connectCount`/`closeCount` instrument how
often `wbconnect` is called and how often an `onclose` callback ran. -/

/-- The `ConnectionState` enum of `src/index.tsx`. -/
inductive ConnectionState where
  | NoServerSelected
  | Connecting
  | CouldNotConnect
  | Connected
  | Disconnected
  deriving DecidableEq

/-- The `ConnectionStatus` enum of `src/index.tsx` (the severity). -/
inductive ConnectionStatus where
  | Warning
  | Error
  | Ok
  deriving DecidableEq

/-- A connection handle: its object identity and the `attempt` value captured
by the `attemptReconnect` closure its `onclose` callback uses. -/
structure Handle where
  hid : Nat
  cap : Nat
  deriving DecidableEq

/-- An armed reconnect timer: the value `attempt + 1` (with the captured
`attempt`) that its `setAttempt` will store, and its delay (always 3000 ms
in the source). -/
structure Timer where
  val : Nat
  delayMs : Nat
  deriving DecidableEq

/-- The state of the connection lifecycle manager. -/
structure ConnSt where
  conn : Option Handle
  attempt : Nat
  connState : ConnectionState
  connStatus : ConnectionStatus
  outstanding : List Nat
  timers : List Timer
  pending : List Handle
  lastDeps : Option (Option Handle × Nat)
  nextId : Nat
  connectCount : Nat
  closeCount : Nat
  deriving DecidableEq

/-- One render/effect pass: if the effect dependencies `(conn, attempt)`
changed since the last effect run, run the cleanup of the previous instance
(close and clear the previous render's `conn`, set `Disconnected`/`Error`)
and then the body over the current render's dependency snapshot (connect —
push an outstanding attempt with the render's captured `attempt` — when
`conn` is absent and `attempt === 0 || automaticReconnect`, setting
`Connecting`/`Warning`). -/
def effectPass (autoRe : Bool) (s : ConnSt) : ConnSt :=
  let deps := (s.conn, s.attempt)
  if s.lastDeps = some deps then s
  else
    let s1 :=
      match s.lastDeps with
      | some (some _, _) =>
        { s with conn := none, connState := ConnectionState.Disconnected,
                 connStatus := ConnectionStatus.Error }
      | _ => s
    let s2 :=
      if deps.1 = none ∧ (deps.2 = 0 ∨ autoRe = true) then
        { s1 with connState := ConnectionState.Connecting,
                  connStatus := ConnectionStatus.Warning,
                  outstanding := s1.outstanding ++ [deps.2],
                  connectCount := s1.connectCount + 1 }
      else s1
    { s2 with lastDeps := some deps }

/-- Run effect passes until the dependencies are stable.  A single pass can
invalidate the dependencies at most once more (the cleanup clearing `conn`),
so three passes always reach the fixpoint. -/
def stabilize (autoRe : Bool) (s : ConnSt) : ConnSt :=
  effectPass autoRe (effectPass autoRe (effectPass autoRe s))

/-- External events delivered to the manager: settlement of the i-th
outstanding connect promise, an armed `onclose` callback firing, and the
oldest armed reconnect timer expiring (all delays are equal, so timers fire
in FIFO order). -/
inductive Ev where
  | resolve (i : Nat)
  | reject (i : Nat)
  | onclose (h : Handle)
  | timerFire
  deriving DecidableEq

/-- One step of the manager: run the event's callback, then re-render and
stabilize the effect.  `none` means the event is not enabled in this state. -/
def step (autoRe : Bool) (s : ConnSt) : Ev → Option ConnSt
  | Ev.resolve i =>
    match s.outstanding.get? i with
    | none => none
    | some a =>
      let h : Handle := ⟨s.nextId, a⟩
      some (stabilize autoRe
        { s with outstanding := s.outstanding.eraseIdx i,
                 conn := some h,
                 pending := s.pending ++ [h],
                 nextId := s.nextId + 1,
                 connState := ConnectionState.Connected,
                 connStatus := ConnectionStatus.Ok })
  | Ev.reject i =>
    match s.outstanding.get? i with
    | none => none
    | some a =>
      some (stabilize autoRe
        { s with outstanding := s.outstanding.eraseIdx i,
                 connState := ConnectionState.CouldNotConnect,
                 connStatus := ConnectionStatus.Error,
                 timers := s.timers ++ (if autoRe then [⟨a + 1, 3000⟩] else []) })
  | Ev.onclose h =>
    if h ∈ s.pending then
      some (stabilize autoRe
        { s with pending := s.pending.erase h,
                 conn := none,
                 connState := ConnectionState.Disconnected,
                 connStatus := ConnectionStatus.Error,
                 timers := s.timers ++ (if autoRe then [⟨h.cap + 1, 3000⟩] else []),
                 closeCount := s.closeCount + 1 })
    else none
  | Ev.timerFire =>
    match s.timers with
    | [] => none
    | t :: rest =>
      some (stabilize autoRe { s with timers := rest, attempt := t.val })

/-- The state of `useWorterbuch` immediately after mounting, before the first
effect run: no connection, attempt counter 0, `Disconnected`/`Error`. -/
def initConnSt : ConnSt :=
  { conn := none, attempt := 0,
    connState := ConnectionState.Disconnected,
    connStatus := ConnectionStatus.Error,
    outstanding := [], timers := [], pending := [], lastDeps := none,
    nextId := 0, connectCount := 0, closeCount := 0 }

/-- The state after the mount render's first effect run (which issues the
first connect call). -/
def startConnSt (autoRe : Bool) : ConnSt := stabilize autoRe initConnSt

/-- Reachable states of the manager. -/
inductive Reach (autoRe : Bool) : ConnSt → Prop where
  | init : Reach autoRe (startConnSt autoRe)
  | step {s s' : ConnSt} {e : Ev} : Reach autoRe s → step autoRe s e = some s' →
      Reach autoRe s'

/-- Run a trace of events from the start state; `none` if some event was not
enabled. -/
def runTrace (autoRe : Bool) (evs : List Ev) : Option ConnSt :=
  evs.foldl (fun os e => os.bind (fun s => step autoRe s e))
    (some (startConnSt autoRe))

theorem effectPass_timers (a : Bool) (s : ConnSt) :
    (effectPass a s).timers = s.timers := by
  unfold effectPass
  dsimp only
  split
  · rfl
  · split <;> split <;> rfl

theorem effectPass_attempt (a : Bool) (s : ConnSt) :
    (effectPass a s).attempt = s.attempt := by
  unfold effectPass
  dsimp only
  split
  · rfl
  · split <;> split <;> rfl

theorem effectPass_pending (a : Bool) (s : ConnSt) :
    (effectPass a s).pending = s.pending := by
  unfold effectPass
  dsimp only
  split
  · rfl
  · split <;> split <;> rfl

theorem effectPass_nextId (a : Bool) (s : ConnSt) :
    (effectPass a s).nextId = s.nextId := by
  unfold effectPass
  dsimp only
  split
  · rfl
  · split <;> split <;> rfl

theorem effectPass_closeCount (a : Bool) (s : ConnSt) :
    (effectPass a s).closeCount = s.closeCount := by
  unfold effectPass
  dsimp only
  split
  · rfl
  · split <;> split <;> rfl

theorem effectPass_conn (a : Bool) (s : ConnSt) :
    (effectPass a s).conn = s.conn ∨ (effectPass a s).conn = none := by
  unfold effectPass
  dsimp only
  split
  · exact Or.inl rfl
  · split <;> split <;>
      first
        | exact Or.inl rfl
        | exact Or.inr rfl

theorem effectPass_outstanding (a : Bool) (s : ConnSt) :
    (effectPass a s).outstanding = s.outstanding ∨
    (effectPass a s).outstanding = s.outstanding ++ [s.attempt] := by
  unfold effectPass
  dsimp only
  split
  · exact Or.inl rfl
  · split <;> split <;>
      first
        | exact Or.inl rfl
        | exact Or.inr rfl

theorem stabilize_timers (a : Bool) (s : ConnSt) :
    (stabilize a s).timers = s.timers := by
  unfold stabilize
  rw [effectPass_timers, effectPass_timers, effectPass_timers]

theorem stabilize_attempt (a : Bool) (s : ConnSt) :
    (stabilize a s).attempt = s.attempt := by
  unfold stabilize
  rw [effectPass_attempt, effectPass_attempt, effectPass_attempt]

theorem stabilize_pending (a : Bool) (s : ConnSt) :
    (stabilize a s).pending = s.pending := by
  unfold stabilize
  rw [effectPass_pending, effectPass_pending, effectPass_pending]

theorem stabilize_closeCount (a : Bool) (s : ConnSt) :
    (stabilize a s).closeCount = s.closeCount := by
  unfold stabilize
  rw [effectPass_closeCount, effectPass_closeCount, effectPass_closeCount]

theorem effectPass_fix (a : Bool) (s : ConnSt)
    (h : s.lastDeps = some (s.conn, s.attempt)) : effectPass a s = s := by
  unfold effectPass
  dsimp only
  rw [if_pos h]

theorem stabilize_of_stable (a : Bool) (s : ConnSt)
    (h : s.lastDeps = some (s.conn, s.attempt)) : stabilize a s = s := by
  unfold stabilize
  rw [effectPass_fix a s h, effectPass_fix a s h, effectPass_fix a s h]

theorem effectPass_noclean_body (a : Bool) (s : ConnSt)
    (hne : ¬s.lastDeps = some (s.conn, s.attempt))
    (hsh : s.lastDeps = none ∨ ∃ x, s.lastDeps = some (none, x))
    (hbody : s.conn = none ∧ (s.attempt = 0 ∨ a = true)) :
    effectPass a s = { s with
      connState := ConnectionState.Connecting,
      connStatus := ConnectionStatus.Warning,
      outstanding := s.outstanding ++ [s.attempt],
      connectCount := s.connectCount + 1,
      lastDeps := some (s.conn, s.attempt) } := by
  unfold effectPass
  dsimp only
  rw [if_neg hne]
  rcases hsh with h | ⟨x, h⟩ <;> rw [h] <;> dsimp only <;> rw [if_pos hbody]

theorem effectPass_noclean_nobody (a : Bool) (s : ConnSt)
    (hne : ¬s.lastDeps = some (s.conn, s.attempt))
    (hsh : s.lastDeps = none ∨ ∃ x, s.lastDeps = some (none, x))
    (hnb : ¬(s.conn = none ∧ (s.attempt = 0 ∨ a = true))) :
    effectPass a s = { s with lastDeps := some (s.conn, s.attempt) } := by
  unfold effectPass
  dsimp only
  rw [if_neg hne]
  rcases hsh with h | ⟨x, h⟩ <;> rw [h] <;> dsimp only <;> rw [if_neg hnb]

theorem effectPass_clean_body (a : Bool) (s : ConnSt) (h0 : Handle) (x : Nat)
    (hne : ¬s.lastDeps = some (s.conn, s.attempt))
    (hld : s.lastDeps = some (some h0, x))
    (hbody : s.conn = none ∧ (s.attempt = 0 ∨ a = true)) :
    effectPass a s = { s with
      conn := none,
      connState := ConnectionState.Connecting,
      connStatus := ConnectionStatus.Warning,
      outstanding := s.outstanding ++ [s.attempt],
      connectCount := s.connectCount + 1,
      lastDeps := some (s.conn, s.attempt) } := by
  unfold effectPass
  dsimp only
  rw [if_neg hne, hld]
  dsimp only
  rw [if_pos hbody]

theorem effectPass_clean_nobody (a : Bool) (s : ConnSt) (h0 : Handle) (x : Nat)
    (hne : ¬s.lastDeps = some (s.conn, s.attempt))
    (hld : s.lastDeps = some (some h0, x))
    (hnb : ¬(s.conn = none ∧ (s.attempt = 0 ∨ a = true))) :
    effectPass a s = { s with
      conn := none,
      connState := ConnectionState.Disconnected,
      connStatus := ConnectionStatus.Error,
      lastDeps := some (s.conn, s.attempt) } := by
  unfold effectPass
  dsimp only
  rw [if_neg hne, hld]
  dsimp only
  rw [if_neg hnb]

theorem effectPass_stable_after (a : Bool) (s : ConnSt) :
    (effectPass a (effectPass a s)).lastDeps =
      some ((effectPass a (effectPass a s)).conn,
        (effectPass a (effectPass a s)).attempt) := by
  by_cases hst : s.lastDeps = some (s.conn, s.attempt)
  · rw [effectPass_fix a s hst, effectPass_fix a s hst]
    exact hst
  · by_cases hb : s.conn = none ∧ (s.attempt = 0 ∨ a = true)
    · rcases hld : s.lastDeps with _ | ⟨co, x⟩
      · rw [effectPass_noclean_body a s hst (Or.inl hld) hb]
        rw [effectPass_fix a _ rfl]
      · rcases co with _ | h0
        · rw [effectPass_noclean_body a s hst (Or.inr ⟨x, hld⟩) hb]
          rw [effectPass_fix a _ rfl]
        · rw [effectPass_clean_body a s h0 x hst hld hb]
          rw [effectPass_fix a _ (by rw [hb.1])]
          rw [hb.1]
    · rcases hld : s.lastDeps with _ | ⟨co, x⟩
      · rw [effectPass_noclean_nobody a s hst (Or.inl hld) hb]
        rw [effectPass_fix a _ rfl]
      · rcases co with _ | h0
        · rw [effectPass_noclean_nobody a s hst (Or.inr ⟨x, hld⟩) hb]
          rw [effectPass_fix a _ rfl]
        · rcases hsc : s.conn with _ | c
          · rw [effectPass_clean_nobody a s h0 x hst hld hb]
            rw [effectPass_fix a _ (by rw [hsc])]
            rw [hsc]
          · set r1 := { s with
              conn := none,
              connState := ConnectionState.Disconnected,
              connStatus := ConnectionStatus.Error,
              lastDeps := some (s.conn, s.attempt) } with hr1
            rw [effectPass_clean_nobody a s h0 x hst hld hb, ← hr1]
            have hne2 : ¬r1.lastDeps = some (r1.conn, r1.attempt) := by
              rw [hr1]
              dsimp only
              rw [hsc]
              intro hcontra
              exact Option.noConfusion
                (Prod.mk.injEq _ _ _ _ ▸ (Option.some.inj hcontra)).1
            have hld2 : r1.lastDeps = some (some c, s.attempt) := by
              rw [hr1]
              dsimp only
              rw [hsc]
            by_cases hb2 : r1.conn = none ∧ (r1.attempt = 0 ∨ a = true)
            · rw [effectPass_clean_body a r1 c s.attempt hne2 hld2 hb2]
            · rw [effectPass_clean_nobody a r1 c s.attempt hne2 hld2 hb2]

theorem stabilize_eq_two (a : Bool) (s : ConnSt) :
    stabilize a s = effectPass a (effectPass a s) := by
  unfold stabilize
  rw [effectPass_fix a _ (effectPass_stable_after a s)]

theorem stabilize_stable (a : Bool) (s : ConnSt) :
    (stabilize a s).lastDeps = some ((stabilize a s).conn, (stabilize a s).attempt) := by
  rw [stabilize_eq_two]
  exact effectPass_stable_after a s

theorem startConnSt_eq (a : Bool) :
    startConnSt a = {
      conn := none,
      attempt := 0,
      connState := ConnectionState.Connecting,
      connStatus := ConnectionStatus.Warning,
      outstanding := [0], timers := [], pending := [],
      lastDeps := some (none, 0),
      nextId := 0, connectCount := 1, closeCount := 0 } := rfl

/-- The invariant of every reachable state when `automaticReconnect` is
`false`: no retry timer is ever armed, the attempt counter stays 0, exactly
one connect call has been made per connection loss
(`connectCount = closeCount + 1`), the effect dependencies are stable, and
connection handling is single-threaded (at most one outstanding connect, at
most one armed `onclose`, and the armed `onclose` belongs to the current
connection). -/
def JFalse (s : ConnSt) : Prop :=
  s.timers = [] ∧ s.attempt = 0 ∧ s.connectCount = s.closeCount + 1 ∧
  s.lastDeps = some (s.conn, 0) ∧
  (match s.conn with
   | none => s.pending = [] ∧ (s.outstanding = [0] ∨ s.outstanding = [])
   | some h => s.pending = [h] ∧ s.outstanding = [])

theorem jfalse_start : JFalse (startConnSt false) := by
  rw [startConnSt_eq]
  exact ⟨rfl, rfl, rfl, rfl, rfl, Or.inl rfl⟩

theorem jfalse_step {s s' : ConnSt} {e : Ev} (hj : JFalse s)
    (hs : step false s e = some s') : JFalse s' := by
  obtain ⟨sc, sa, scs, sst, so, stm, sp, sld, sni, scc, sclc⟩ := s
  obtain ⟨ht, ha, hc, hld, hcase⟩ := hj
  dsimp only at ht ha hc hld hcase
  subst ht ha hc hld
  cases e with
  | resolve i =>
    rcases sc with _ | h0
    · dsimp only at hcase
      obtain ⟨hpnd, houts⟩ := hcase
      subst hpnd
      rcases houts with houts | houts <;> subst houts
      · cases i with
        | zero =>
          simp only [step, List.get?] at hs
          obtain rfl := Option.some.inj hs.symm
          simp [stabilize, effectPass, JFalse]
        | succ j => simp [step] at hs
      · simp [step] at hs
    · dsimp only at hcase
      obtain ⟨hpnd, houts⟩ := hcase
      subst hpnd houts
      simp [step] at hs
  | reject i =>
    rcases sc with _ | h0
    · dsimp only at hcase
      obtain ⟨hpnd, houts⟩ := hcase
      subst hpnd
      rcases houts with houts | houts <;> subst houts
      · cases i with
        | zero =>
          simp only [step, List.get?] at hs
          obtain rfl := Option.some.inj hs.symm
          simp [stabilize, effectPass, JFalse]
        | succ j => simp [step] at hs
      · simp [step] at hs
    · dsimp only at hcase
      obtain ⟨hpnd, houts⟩ := hcase
      subst hpnd houts
      simp [step] at hs
  | onclose h =>
    rcases sc with _ | h0
    · dsimp only at hcase
      obtain ⟨hpnd, houts⟩ := hcase
      subst hpnd
      simp [step] at hs
    · dsimp only at hcase
      obtain ⟨hpnd, houts⟩ := hcase
      subst hpnd houts
      by_cases hmem : h = h0
      · subst hmem
        simp only [step, List.mem_singleton, if_pos rfl] at hs
        obtain rfl := Option.some.inj hs.symm
        simp [stabilize, effectPass, JFalse, List.erase]
      · rw [show step false _ (Ev.onclose h) = none by
            simp [step, List.mem_singleton, hmem]] at hs
        exact absurd hs (by simp)
  | timerFire => simp [step] at hs

theorem jfalse_reach {s : ConnSt} (h : Reach false s) : JFalse s := by
  induction h with
  | init => exact jfalse_start
  | step hr hs ih => exact jfalse_step ih hs

theorem step_reject_timers {s s' : ConnSt} {i aCap : Nat}
    (hg : s.outstanding.get? i = some aCap)
    (hs : step true s (Ev.reject i) = some s') :
    s'.timers = s.timers ++ [⟨aCap + 1, 3000⟩] := by
  simp only [step] at hs
  rw [hg] at hs
  obtain rfl := Option.some.inj hs.symm
  rw [stabilize_timers]
  simp

theorem step_onclose_timers {s s' : ConnSt} {h : Handle}
    (hmem : h ∈ s.pending)
    (hs : step true s (Ev.onclose h) = some s') :
    s'.timers = s.timers ++ [⟨h.cap + 1, 3000⟩] := by
  simp only [step] at hs
  rw [if_pos hmem] at hs
  obtain rfl := Option.some.inj hs.symm
  rw [stabilize_timers]
  simp

/-- Invariant of reachable states in well-behaved executions: the armed retry
timers carry non-decreasing values within one step of the current attempt
counter, every outstanding connect and the current handle captured the
current attempt value, and the effect dependencies are stable. -/
def ConnInv (s : ConnSt) : Prop :=
  List.Sorted (· ≤ ·) (s.timers.map Timer.val) ∧
  (∀ t ∈ s.timers, s.attempt ≤ t.val ∧ t.val ≤ s.attempt + 1) ∧
  (∀ x ∈ s.outstanding, x = s.attempt) ∧
  (∀ h : Handle, s.conn = some h → h.cap = s.attempt) ∧
  s.lastDeps = some (s.conn, s.attempt)

/-- Well-behavedness of an event: a retry timer only fires when no connect
attempt is outstanding, and an `onclose` callback only fires for the current
connection (no stale callbacks). -/
def GoodEv (s : ConnSt) : Ev → Prop
  | Ev.timerFire => s.outstanding = []
  | Ev.onclose h => s.conn = some h
  | _ => True

/-- States reachable through well-behaved events only. -/
inductive GoodReach (a : Bool) : ConnSt → Prop where
  | init : GoodReach a (startConnSt a)
  | step {s s' : ConnSt} {e : Ev} : GoodReach a s → step a s e = some s' →
      GoodEv s e → GoodReach a s'

theorem effectPass_connPre (a : Bool) (s : ConnSt)
    (h4 : ∀ h : Handle, s.conn = some h →
      (h.cap = s.attempt ∨ s.lastDeps = some (s.conn, h.cap))) :
    ∀ h : Handle, (effectPass a s).conn = some h →
      (h.cap = (effectPass a s).attempt ∨
        (effectPass a s).lastDeps = some ((effectPass a s).conn, h.cap)) := by
  intro h hc
  by_cases hst : s.lastDeps = some (s.conn, s.attempt)
  · rw [effectPass_fix a s hst] at hc ⊢
    exact h4 h hc
  · by_cases hb : s.conn = none ∧ (s.attempt = 0 ∨ a = true)
    · rcases hld : s.lastDeps with _ | ⟨co, x⟩
      · rw [effectPass_noclean_body a s hst (Or.inl hld) hb] at hc
        dsimp only at hc
        rw [hb.1] at hc
        exact absurd hc (by simp)
      · rcases co with _ | h0
        · rw [effectPass_noclean_body a s hst (Or.inr ⟨x, hld⟩) hb] at hc
          dsimp only at hc
          rw [hb.1] at hc
          exact absurd hc (by simp)
        · rw [effectPass_clean_body a s h0 x hst hld hb] at hc
          dsimp only at hc
          exact absurd hc (by simp)
    · rcases hld : s.lastDeps with _ | ⟨co, x⟩
      · rw [effectPass_noclean_nobody a s hst (Or.inl hld) hb] at hc ⊢
        dsimp only at hc ⊢
        rcases h4 h hc with h1 | h1
        · exact Or.inl h1
        · rw [hld] at h1
          exact absurd h1 (by simp)
      · rcases co with _ | h0
        · rw [effectPass_noclean_nobody a s hst (Or.inr ⟨x, hld⟩) hb] at hc ⊢
          dsimp only at hc ⊢
          rcases h4 h hc with h1 | h1
          · exact Or.inl h1
          · rw [hld, hc] at h1
            exact absurd h1 (by simp)
        · rw [effectPass_clean_nobody a s h0 x hst hld hb] at hc
          dsimp only at hc
          exact absurd hc (by simp)

theorem stabilize_conn_cap (a : Bool) (s : ConnSt)
    (h4 : ∀ h : Handle, s.conn = some h →
      (h.cap = s.attempt ∨ s.lastDeps = some (s.conn, h.cap))) :
    ∀ h : Handle, (stabilize a s).conn = some h → h.cap = (stabilize a s).attempt := by
  intro h hc
  have hp := effectPass_connPre a _ (effectPass_connPre a _ (effectPass_connPre a s h4))
  rcases hp h hc with h1 | h1
  · exact h1
  · have hst := stabilize_stable a s
    have h2 : some ((stabilize a s).conn, (stabilize a s).attempt)
        = some ((stabilize a s).conn, h.cap) := hst.symm.trans h1
    have h3 := Option.some.inj h2
    exact ((Prod.mk.injEq _ _ _ _).mp h3).2.symm

theorem effectPass_outstanding_sub (a : Bool) (s : ConnSt) :
    ∀ x ∈ (effectPass a s).outstanding, x ∈ s.outstanding ∨ x = s.attempt := by
  intro x hx
  rcases effectPass_outstanding a s with h | h
  · rw [h] at hx
    exact Or.inl hx
  · rw [h] at hx
    rcases List.mem_append.mp hx with h1 | h1
    · exact Or.inl h1
    · exact Or.inr (by simpa using h1)

theorem stabilize_outstanding_sub (a : Bool) (s : ConnSt) :
    ∀ x ∈ (stabilize a s).outstanding, x ∈ s.outstanding ∨ x = s.attempt := by
  intro x hx
  rcases effectPass_outstanding_sub a _ x hx with h1 | h1
  · rcases effectPass_outstanding_sub a _ x h1 with h2 | h2
    · rcases effectPass_outstanding_sub a _ x h2 with h3 | h3
      · exact Or.inl h3
      · exact Or.inr h3
    · exact Or.inr (by rw [h2, effectPass_attempt])
  · exact Or.inr (by rw [h1, effectPass_attempt, effectPass_attempt])

theorem stabilize_inv (a : Bool) (hr : ConnSt)
    (hsort : List.Sorted (· ≤ ·) (hr.timers.map Timer.val))
    (hbound : ∀ t ∈ hr.timers, hr.attempt ≤ t.val ∧ t.val ≤ hr.attempt + 1)
    (houts : ∀ x ∈ hr.outstanding, x = hr.attempt)
    (h4 : ∀ h : Handle, hr.conn = some h →
      (h.cap = hr.attempt ∨ hr.lastDeps = some (hr.conn, h.cap))) :
    ConnInv (stabilize a hr) := by
  refine ⟨?_, ?_, ?_, stabilize_conn_cap a hr h4, stabilize_stable a hr⟩
  · rw [stabilize_timers]
    exact hsort
  · rw [stabilize_timers, stabilize_attempt]
    exact hbound
  · intro x hx
    rw [stabilize_attempt]
    rcases stabilize_outstanding_sub a hr x hx with h1 | h1
    · exact houts x h1
    · exact h1

theorem connInv_step {a : Bool} {s s' : ConnSt} {e : Ev}
    (hi : ConnInv s) (hg : GoodEv s e) (hs : step a s e = some s') :
    ConnInv s' ∧ s.attempt ≤ s'.attempt := by
  obtain ⟨h1, h2, h3, h4, h5⟩ := hi
  cases e with
  | resolve i =>
    simp only [step] at hs
    cases hgi : s.outstanding.get? i with
    | none =>
      rw [hgi] at hs
      exact absurd hs (by simp)
    | some aCap =>
      rw [hgi] at hs
      obtain rfl := Option.some.inj hs.symm
      have haCap : aCap = s.attempt := h3 aCap (List.get?_mem hgi)
      constructor
      · apply stabilize_inv
        · exact h1
        · exact h2
        · intro x hx
          exact h3 x (List.mem_of_mem_eraseIdx hx)
        · intro h hc
          dsimp only at hc
          obtain rfl := Option.some.inj hc.symm
          exact Or.inl haCap
      · rw [stabilize_attempt]
  | reject i =>
    simp only [step] at hs
    cases hgi : s.outstanding.get? i with
    | none =>
      rw [hgi] at hs
      exact absurd hs (by simp)
    | some aCap =>
      rw [hgi] at hs
      obtain rfl := Option.some.inj hs.symm
      have haCap : aCap = s.attempt := h3 aCap (List.get?_mem hgi)
      have hbound : ∀ t ∈ (s.timers ++
          (if a then [(⟨aCap + 1, 3000⟩ : Timer)] else [])),
          s.attempt ≤ t.val ∧ t.val ≤ s.attempt + 1 := by
        intro t ht
        rcases List.mem_append.mp ht with h | h
        · exact h2 t h
        · cases a with
          | false => simp at h
          | true =>
            obtain rfl : t = ⟨aCap + 1, 3000⟩ := by simpa using h
            rw [haCap]
            exact ⟨Nat.le_succ _, le_refl _⟩
      constructor
      · apply stabilize_inv
        · dsimp only
          rw [List.map_append]
          rw [show List.Sorted (· ≤ ·)
              (s.timers.map Timer.val ++
                ((if a then [(⟨aCap + 1, 3000⟩ : Timer)] else []) :
                  List Timer).map Timer.val) ↔ _ from List.pairwise_append]
          refine ⟨h1, ?_, ?_⟩
          · cases a <;> simp
          · intro x hx y hy
            rcases List.mem_map.mp hx with ⟨t, htm, rfl⟩
            rcases List.mem_map.mp hy with ⟨u, hum, rfl⟩
            cases a with
            | false => simp at hum
            | true =>
              obtain rfl : u = ⟨aCap + 1, 3000⟩ := by simpa using hum
              dsimp only
              rw [haCap]
              exact (h2 t htm).2
        · exact hbound
        · intro x hx
          exact h3 x (List.mem_of_mem_eraseIdx hx)
        · intro h hc
          dsimp only at hc
          exact Or.inl (h4 h hc)
      · rw [stabilize_attempt]
  | onclose h =>
    simp only [step] at hs
    by_cases hmem : h ∈ s.pending
    · rw [if_pos hmem] at hs
      obtain rfl := Option.some.inj hs.symm
      have hcap : h.cap = s.attempt := h4 h hg
      have hbound : ∀ t ∈ (s.timers ++
          (if a then [(⟨h.cap + 1, 3000⟩ : Timer)] else [])),
          s.attempt ≤ t.val ∧ t.val ≤ s.attempt + 1 := by
        intro t ht
        rcases List.mem_append.mp ht with h' | h'
        · exact h2 t h'
        · cases a with
          | false => simp at h'
          | true =>
            obtain rfl : t = ⟨h.cap + 1, 3000⟩ := by simpa using h'
            rw [hcap]
            exact ⟨Nat.le_succ _, le_refl _⟩
      constructor
      · apply stabilize_inv
        · dsimp only
          rw [List.map_append]
          rw [show List.Sorted (· ≤ ·)
              (s.timers.map Timer.val ++
                ((if a then [(⟨h.cap + 1, 3000⟩ : Timer)] else []) :
                  List Timer).map Timer.val) ↔ _ from List.pairwise_append]
          refine ⟨h1, ?_, ?_⟩
          · cases a <;> simp
          · intro x hx y hy
            rcases List.mem_map.mp hx with ⟨t, htm, rfl⟩
            rcases List.mem_map.mp hy with ⟨u, hum, rfl⟩
            cases a with
            | false => simp at hum
            | true =>
              obtain rfl : u = ⟨h.cap + 1, 3000⟩ := by simpa using hum
              dsimp only
              rw [hcap]
              exact (h2 t htm).2
        · exact hbound
        · intro x hx
          exact h3 x hx
        · intro h' hc
          exact absurd hc (by simp)
      · rw [stabilize_attempt]
    · rw [if_neg hmem] at hs
      exact absurd hs (by simp)
  | timerFire =>
    simp only [step] at hs
    cases htm : s.timers with
    | nil =>
      rw [htm] at hs
      exact absurd hs (by simp)
    | cons t rest =>
      rw [htm] at hs
      obtain rfl := Option.some.inj hs.symm
      have hbt : s.attempt ≤ t.val ∧ t.val ≤ s.attempt + 1 :=
        h2 t (by rw [htm]; exact List.mem_cons_self t rest)
      have hsorted := h1
      rw [htm, List.map_cons] at hsorted
      obtain ⟨hhead, htail⟩ := List.sorted_cons.mp hsorted
      constructor
      · apply stabilize_inv
        · exact htail
        · intro w hw
          dsimp only at hw ⊢
          constructor
          · exact hhead w.val (List.mem_map.mpr ⟨w, hw, rfl⟩)
          · have hw2 : w.val ≤ s.attempt + 1 :=
              (h2 w (by rw [htm]; exact List.mem_cons_of_mem t hw)).2
            omega
        · intro x hx
          dsimp only at hx
          rw [show s.outstanding = [] from hg] at hx
          simp at hx
        · intro h hc
          dsimp only at hc ⊢
          right
          rw [h5, hc, h4 h hc]
      · rw [stabilize_attempt]
        exact hbt.1

theorem connInv_start (a : Bool) : ConnInv (startConnSt a) := by
  rw [startConnSt_eq]
  refine ⟨by simp, by simp, ?_, ?_, rfl⟩
  · intro x hx
    simpa using hx
  · intro h hc
    exact absurd hc (by simp)

theorem connInv_goodReach {a : Bool} {s : ConnSt} (h : GoodReach a s) : ConnInv s := by
  induction h with
  | init => exact connInv_start a
  | step hr hs hg ih => exact (connInv_step ih hg hs).1

/-- The severity derived one-to-one from a connection status, as the four
`setStatusSummary` call sites of `useWorterbuch` pair them. -/
def severityOf : ConnectionState → ConnectionStatus
  | ConnectionState.Disconnected => ConnectionStatus.Error
  | ConnectionState.Connecting => ConnectionStatus.Warning
  | ConnectionState.Connected => ConnectionStatus.Ok
  | ConnectionState.CouldNotConnect => ConnectionStatus.Error
  | ConnectionState.NoServerSelected => ConnectionStatus.Error

/-- The four (state, severity) pairs `useWorterbuch` ever exposes. -/
def allowedPairs : List (ConnectionState × ConnectionStatus) :=
  [(ConnectionState.Disconnected, ConnectionStatus.Error),
   (ConnectionState.Connecting, ConnectionStatus.Warning),
   (ConnectionState.Connected, ConnectionStatus.Ok),
   (ConnectionState.CouldNotConnect, ConnectionStatus.Error)]

theorem effectPass_pair (a : Bool) (s : ConnSt) :
    ((effectPass a s).connState, (effectPass a s).connStatus)
        = (s.connState, s.connStatus) ∨
    ((effectPass a s).connState, (effectPass a s).connStatus) ∈ allowedPairs := by
  by_cases hst : s.lastDeps = some (s.conn, s.attempt)
  · rw [effectPass_fix a s hst]
    exact Or.inl rfl
  · by_cases hb : s.conn = none ∧ (s.attempt = 0 ∨ a = true)
    · rcases hld : s.lastDeps with _ | ⟨co, x⟩
      · rw [effectPass_noclean_body a s hst (Or.inl hld) hb]
        right
        simp [allowedPairs]
      · rcases co with _ | h0
        · rw [effectPass_noclean_body a s hst (Or.inr ⟨x, hld⟩) hb]
          right
          simp [allowedPairs]
        · rw [effectPass_clean_body a s h0 x hst hld hb]
          right
          simp [allowedPairs]
    · rcases hld : s.lastDeps with _ | ⟨co, x⟩
      · rw [effectPass_noclean_nobody a s hst (Or.inl hld) hb]
        exact Or.inl rfl
      · rcases co with _ | h0
        · rw [effectPass_noclean_nobody a s hst (Or.inr ⟨x, hld⟩) hb]
          exact Or.inl rfl
        · rw [effectPass_clean_nobody a s h0 x hst hld hb]
          right
          simp [allowedPairs]

theorem effectPass_pair_mem (a : Bool) (s : ConnSt)
    (h : (s.connState, s.connStatus) ∈ allowedPairs) :
    ((effectPass a s).connState, (effectPass a s).connStatus) ∈ allowedPairs := by
  rcases effectPass_pair a s with h1 | h1
  · rw [h1]
    exact h
  · exact h1

theorem stabilize_pair_mem (a : Bool) (s : ConnSt)
    (h : (s.connState, s.connStatus) ∈ allowedPairs) :
    ((stabilize a s).connState, (stabilize a s).connStatus) ∈ allowedPairs :=
  effectPass_pair_mem a _ (effectPass_pair_mem a _ (effectPass_pair_mem a s h))

theorem reach_pair {a : Bool} {s : ConnSt} (h : Reach a s) :
    (s.connState, s.connStatus) ∈ allowedPairs := by
  induction h with
  | init =>
    rw [startConnSt_eq]
    simp [allowedPairs]
  | @step s0 s1 e hr hs ih =>
    cases e with
    | resolve i =>
      simp only [step] at hs
      cases hgi : s0.outstanding.get? i with
      | none =>
        rw [hgi] at hs
        exact absurd hs (by simp)
      | some aCap =>
        rw [hgi] at hs
        obtain rfl := Option.some.inj hs.symm
        apply stabilize_pair_mem
        simp [allowedPairs]
    | reject i =>
      simp only [step] at hs
      cases hgi : s0.outstanding.get? i with
      | none =>
        rw [hgi] at hs
        exact absurd hs (by simp)
      | some aCap =>
        rw [hgi] at hs
        obtain rfl := Option.some.inj hs.symm
        apply stabilize_pair_mem
        simp [allowedPairs]
    | onclose h2 =>
      simp only [step] at hs
      by_cases hmem : h2 ∈ s0.pending
      · rw [if_pos hmem] at hs
        obtain rfl := Option.some.inj hs.symm
        apply stabilize_pair_mem
        simp [allowedPairs]
      · rw [if_neg hmem] at hs
        exact absurd hs (by simp)
    | timerFire =>
      simp only [step] at hs
      cases htm : s0.timers with
      | nil =>
        rw [htm] at hs
        exact absurd hs (by simp)
      | cons t rest =>
        rw [htm] at hs
        obtain rfl := Option.some.inj hs.symm
        apply stabilize_pair_mem
        exact ih

/-- **C8.** In every reachable state of the connection lifecycle manager the
exposed (status, severity) pair is one of exactly Disconnected/Error,
Connecting/Warning, Connected/Ok and CouldNotConnect/Error — each transition
sets both fields together via `setStatusSummary` — and the severity is a
function of the status. -/
theorem C8_status_severity {a : Bool} {s : ConnSt} (h : Reach a s) :
    (s.connState, s.connStatus) ∈ allowedPairs ∧
    s.connStatus = severityOf s.connState := by
  have hp := reach_pair h
  refine ⟨hp, ?_⟩
  simp only [allowedPairs, List.mem_cons, List.mem_singleton,
    List.not_mem_nil, or_false, Prod.mk.injEq] at hp
  rcases hp with ⟨h1, h2⟩ | ⟨h1, h2⟩ | ⟨h1, h2⟩ | ⟨h1, h2⟩ <;>
    rw [h1, h2] <;> rfl

/-- Witness for C8 at the concrete initial reachable state. -/
theorem C8_status_severity_witness :
    ((startConnSt false).connState, (startConnSt false).connStatus)
        ∈ allowedPairs ∧
    (startConnSt false).connStatus = severityOf (startConnSt false).connState :=
  C8_status_severity Reach.init

/-- **C7 counterexample.** The claim fails on the code in two ways.  With
`automaticReconnect = false`, the trace "the connect attempt succeeds, then
the server closes the connection" ends with `connectCount = 2`: the close
clears `conn`, the effect re-runs, and `attempt === 0` re-triggers a second
connect call — not "exactly one connect attempt regardless of how the
attempt ends".  With `automaticReconnect = true`, the trace "connect,
server close (arming a 3 s retry with captured attempt 0 and immediately
reconnecting), the retry timer fires before that reconnect settles (attempt
becomes 1, a second connect is issued), the newer attempt is rejected (arming
a retry with value 2) and that timer fires (attempt 2), then the *stale*
first reconnect finally rejects, arming a retry carrying its captured
`attempt + 1 = 1`" reaches `attempt = 2`, after which the stale timer fires
and sets `attempt = 1`: the attempt counter decreases. -/
theorem C7_counterexample :
    (runTrace false [Ev.resolve 0, Ev.onclose ⟨0, 0⟩]).map ConnSt.connectCount
      = some 2 ∧
    (runTrace true [Ev.resolve 0, Ev.onclose ⟨0, 0⟩, Ev.timerFire, Ev.reject 1,
      Ev.timerFire, Ev.reject 0]).map ConnSt.attempt = some 2 ∧
    (runTrace true [Ev.resolve 0, Ev.onclose ⟨0, 0⟩, Ev.timerFire, Ev.reject 1,
      Ev.timerFire, Ev.reject 0, Ev.timerFire]).map ConnSt.attempt = some 1 :=
  ⟨by decide, by decide, by decide⟩

/-- **C7 (amended).** With `automaticReconnect = false` no retry is ever
scheduled and the attempt counter stays 0 — a failure is terminal, but each
close of an established connection re-triggers the activation condition, so
exactly one connect call is made per connection loss
(`connectCount = closeCount + 1`) rather than exactly one overall.  With
`automaticReconnect = true` every rejected attempt and every connection close
schedules exactly one retry timer, with the fixed 3000 ms delay, carrying the
captured attempt counter plus one.  The attempt counter never decreases in
executions without stale callbacks — when retry timers only fire while no
connect attempt is outstanding and close callbacks only fire for the current
connection. -/
theorem C7_connection_retry (autoRe : Bool) :
    (∀ s : ConnSt, Reach false s →
      s.timers = [] ∧ s.attempt = 0 ∧ s.connectCount = s.closeCount + 1) ∧
    (∀ (s s' : ConnSt) (i aCap : Nat), s.outstanding.get? i = some aCap →
      step true s (Ev.reject i) = some s' →
      s'.timers = s.timers ++ [⟨aCap + 1, 3000⟩]) ∧
    (∀ (s s' : ConnSt) (h : Handle), h ∈ s.pending →
      step true s (Ev.onclose h) = some s' →
      s'.timers = s.timers ++ [⟨h.cap + 1, 3000⟩]) ∧
    (∀ (s s' : ConnSt) (e : Ev), GoodReach autoRe s → GoodEv s e →
      step autoRe s e = some s' → s.attempt ≤ s'.attempt) := by
  refine ⟨?_, ?_, ?_, ?_⟩
  · intro s hr
    obtain ⟨ht, ha, hc, _⟩ := jfalse_reach hr
    exact ⟨ht, ha, hc⟩
  · intro s s' i aCap hg hs
    exact step_reject_timers hg hs
  · intro s s' h hmem hs
    exact step_onclose_timers hmem hs
  · intro s s' e hr hg hs
    exact (connInv_step (connInv_goodReach hr) hg hs).2

/-- Witness for C7 (amended) at the concrete initial reachable state with
`automaticReconnect = false`. -/
theorem C7_connection_retry_witness :
    (startConnSt false).timers = [] ∧ (startConnSt false).attempt = 0 ∧
    (startConnSt false).connectCount = (startConnSt false).closeCount + 1 :=
  (C7_connection_retry false).1 (startConnSt false) Reach.init

end Worterbuch
